import Mathlib

/-!
Verification of the gateway's indexer-selection and query-execution engine.

The development shallowly embeds:
* `src/prelude/decimal.rs` — the positive fixed-precision decimal
  (`UDecimal<P>`): its `FromStr` parser and `Display` renderer, over a `Nat`
  internal value standing for the `U256` storage.
* the selection engine `select_indexers` — the implementation crate is not
  part of the sources here (only its fuzz test `indexer-selection/src/test.rs`
  is), so the function is modelled from the specification (see the doc
  comments marked "Modelled from the spec").
* `src/query_engine/mod.rs` — `execute_query` / `execute_deployment_query`:
  the retry loop is embedded as a recursive function driven by an environment
  `Nat → Step` giving, per loop iteration, the outcomes of the external
  collaborators (selection result, block resolution, collateral transfer,
  indexer transport / response).
* `graph-gateway/src/subscriptions_subgraph.rs` — the map built by
  `poll_active_subscriptions`.

Rust strings are embedded as `List Char` (all relevant strings are ASCII, so
byte and char indexing agree); `U256` values as `Nat` with an explicit
`2 ^ 256` bound where the code can overflow.
-/

/-! ## Decimal model (`src/prelude/decimal.rs`) -/

/-- `ParseStrError` from `decimal.rs`. `U256::from_dec_str` failures are
mapped onto `InvalidInput` by `from_str`, so a single error value suffices. -/
inductive ParseStrError where
  | invalidInput
deriving DecidableEq

/-- The `ascii_digit` closure of `UDecimal::from_str`:
`('0' <= c) && (c <= '9')`. -/
def isAsciiDigit (c : Char) : Bool :=
  decide ('0' ≤ c) && decide (c ≤ '9')

/-- One step of decimal accumulation used by `U256::from_dec_str`. -/
def foldDigitsStep (acc : Nat) (c : Char) : Nat :=
  acc * 10 + (c.toNat - 48)

/-- Value of a most-significant-first decimal digit string. -/
def foldDigits (l : List Char) : Nat :=
  l.foldl foldDigitsStep 0

/-- `U256::from_dec_str`: rejects non-digit characters, and rejects values
that do not fit in 256 bits (the checked arithmetic of `from_dec_str`
overflows exactly when the final value is `≥ 2 ^ 256`). -/
def fromDecStr (l : List Char) : Except ParseStrError Nat :=
  if l.all isAsciiDigit then
    if foldDigits l < 2 ^ 256 then .ok (foldDigits l) else .error .invalidInput
  else .error .invalidInput

/-- `UDecimal::<P>::from_str`: requires at least one ASCII digit, splits at
the first `'.'` (`position` returns the length when absent), takes the
integer part followed by the fractional digits padded with `'0'` to exactly
`P` digits, and parses the result as the internal `U256` value. -/
def fromStr (P : Nat) (s : List Char) : Except ParseStrError Nat :=
  if s.any isAsciiDigit then
    let pos := s.findIdx (fun c => c = '.')
    let int := s.take pos
    let frac := s.drop pos
    fromDecStr (int ++ (frac.drop 1 ++ List.replicate P '0').take P)
  else .error .invalidInput

/-- Decimal digit to its ASCII character. -/
def decDigitChar (d : Nat) : Char := Char.ofNat (48 + d)

/-- `U256::to_string`: most-significant-first decimal digits, no leading
zeros, `"0"` for zero. -/
def toDecChars (n : Nat) : List Char :=
  if n = 0 then ['0'] else (Nat.digits 10 n).reverse.map decDigitChar

/-- `digits.iter().rev().take_while(|&&b| b == b'0').count()` from
`UDecimal::fmt`. -/
def trailingZeroCount (l : List Char) : Nat :=
  (l.reverse.takeWhile (fun c => c = '0')).length

/-- `UDecimal::<P>::fmt` (the `Display` impl): renders `internal · 10⁻ᴾ`,
stripping up to `P` trailing fractional zeros. -/
def render (P : Nat) (internal : Nat) : List Char :=
  if internal = 0 then ['0']
  else
    let digits := toDecChars internal
    let ctz := min (trailingZeroCount digits) P
    if digits.length < P then
      '0' :: '.' ::
        (List.replicate (P - digits.length) '0' ++ digits.take (digits.length - ctz))
    else
      let int0 := digits.take (digits.length - P)
      let int := if int0.length = 0 then ['0'] else int0
      if ctz = P then int
      else int ++ '.' :: (digits.drop (digits.length - P)).take (P - ctz)

/-! ## Selection engine model

Modelled from the spec: the `select_indexers` implementation crate is not in
the sources (only its fuzz test is), so the selection pipeline is built from
the specification §4.1 and the test's `check()` oracle: disqualifier
predicates applied in the order
MissingRequiredBlock → NoStatus → NoStake → NoAllocation → FeeTooHigh,
survivors sorted by utility descending (ties: smaller fee, then address
ascending), then a greedy budget-capped take of up to `selection_limit`
entries.  The five-axis utility computation is abstracted as a per-candidate
score: the claims under verification quantify over all scores.  Addresses are
abstracted as naturals ordered as their byte strings; fees and the budget are
GRT decimal internal values as naturals. -/

/-- 20-byte actor identifier, abstracted as a natural number. -/
abbrev Address := Nat

/-- Per-indexer disqualification reasons of `select_indexers`. -/
inductive IndexerError where
  | missingRequiredBlock
  | noStatus
  | noStake
  | noAllocation
  | feeTooHigh
deriving DecidableEq

/-- Modelled from the spec: the part of `BlockStatus` the disqualifiers
read. -/
structure BlockStatus where
  reportedNumber : Nat
deriving DecidableEq

/-- Modelled from the spec: a candidate together with the snapshot data the
selection reads for it (stake, total allocation, indexing status, cost-model
fee for the query at hand) and its already-combined utility score. -/
structure CandidateInfo where
  indexer : Address
  stake : Nat
  totalAllocation : Nat
  block : Option BlockStatus
  costModelFee : Option Nat
  utility : Nat
deriving DecidableEq

/-- Modelled from the spec: the per-request knobs the disqualifiers and the
greedy budget cap read. -/
structure UtilityParams where
  budget : Nat
  requiredBlock : Option Nat
deriving DecidableEq

/-- Fee of a candidate: the cost model evaluated on the query; a missing
cost model prices the query at zero (as in the test oracle). -/
def candidateFee (c : CandidateInfo) : Nat :=
  c.costModelFee.getD 0

/-- Modelled from the spec: first matching disqualifier, in the load-bearing
order MissingRequiredBlock → NoStatus → NoStake → NoAllocation → FeeTooHigh.
The required-block predicate compares the request's required block against
the reported block when both exist. -/
def disqualify (p : UtilityParams) (c : CandidateInfo) : Option IndexerError :=
  if (match p.requiredBlock, c.block with
      | some n, some b => decide (b.reportedNumber < n)
      | _, _ => false) then
    some .missingRequiredBlock
  else if c.block = none then some .noStatus
  else if c.stake = 0 then some .noStake
  else if c.totalAllocation = 0 then some .noAllocation
  else if p.budget < candidateFee c then some .feeTooHigh
  else none

/-- A selected indexer with its fee and utility. -/
structure Selection where
  indexer : Address
  fee : Nat
  utility : Nat
deriving DecidableEq

/-- Sort order of survivors: utility descending, ties broken by smaller fee,
then by address ascending. -/
def selBefore (a b : Selection) : Bool :=
  if a.utility ≠ b.utility then decide (b.utility < a.utility)
  else if a.fee ≠ b.fee then decide (a.fee < b.fee)
  else decide (a.indexer ≤ b.indexer)

/-- Insertion into a list sorted by `selBefore`. -/
def insertSel (x : Selection) : List Selection → List Selection
  | [] => [x]
  | y :: ys => if selBefore x y then x :: y :: ys else y :: insertSel x ys

/-- Deterministic sort of the survivors by `selBefore`. -/
def sortSels : List Selection → List Selection
  | [] => []
  | x :: xs => insertSel x (sortSels xs)

/-- Modelled from the spec: greedily keep up to `limit` entries while the
cumulative fee stays within the budget; entries whose inclusion would exceed
the budget are skipped, not an error. -/
def greedyTake (budget : Nat) : Nat → Nat → List Selection → List Selection
  | _, _, [] => []
  | limit, spent, s :: rest =>
    if limit = 0 then []
    else if spent + s.fee ≤ budget then
      s :: greedyTake budget (limit - 1) (spent + s.fee) rest
    else greedyTake budget limit spent rest

/-- Result of `select_indexers`: the kept selections plus the error map,
represented as the list of (address, reason) pairs in candidate order. -/
structure SelectResult where
  selections : List Selection
  errors : List (Address × IndexerError)
deriving DecidableEq

/-- Modelled from the spec: `select_indexers` against a snapshot already
flattened into the candidates. Disqualified candidates are recorded in the
error map with their first matching reason; survivors are priced, sorted,
and taken greedily under the budget. -/
def selectIndexers (cands : List CandidateInfo) (p : UtilityParams)
    (selectionLimit : Nat) : SelectResult :=
  let errors := cands.filterMap
    (fun c => (disqualify p c).map (fun e => (c.indexer, e)))
  let survivors := cands.filter (fun c => disqualify p c = none)
  let priced := survivors.map
    (fun c => Selection.mk c.indexer (candidateFee c) c.utility)
  { selections := greedyTake p.budget selectionLimit 0 (sortSels priced)
    errors := errors }

/-- The error map described by the claims: for each reason, the addresses of
the candidates on which that disqualifier (applied independently, first
match wins) fires. -/
def independentErrors (p : UtilityParams) (cands : List CandidateInfo)
    (e : IndexerError) : List Address :=
  (cands.filter (fun c => disqualify p c = some e)).map CandidateInfo.indexer

/-- Sum of the fees of a list of selections. -/
def sumFees (l : List Selection) : Nat :=
  l.foldr (fun s acc => s.fee + acc) 0

/-! ## Execution loop model (`src/query_engine/mod.rs`)

`execute_deployment_query` is a `for` loop bounded by
`indexer_selection_retry_limit`.  Each iteration consults external
collaborators (the selection engine, the block resolver, the collateral
broker, the indexer transport); their outcomes are embedded as an
environment `Nat → Step` indexed by the iteration counter.  The loop state
is the per-request candidate list `indexers`; the emitted observations and
the requested collateral transfers are accumulated so that claims can speak
about them. -/

/-- 32-byte deployment identifier, abstracted as a natural number. -/
abbrev Deployment := Nat

/-- `Subgraph` from `query_engine/mod.rs`. -/
inductive Subgraph where
  | name (s : String)
  | deployment (d : Deployment)
deriving DecidableEq

/-- The fields of `IndexerQuery` the loop reads. -/
structure IndexerQueryM where
  indexer : Address
  fee : Nat
  lowCollateralWarning : Bool
deriving DecidableEq

/-- `UnresolvedBlock` from the selection crate. -/
inductive UnresolvedBlockM where
  | withHash (h : Nat)
  | withNumber (n : Nat)
deriving DecidableEq

/-- The possible results of `Indexers::select_indexer` as matched by the
loop. -/
inductive SelectionOutcome where
  | selected (q : IndexerQueryM)
  | noneSelected
  | missingNetworkParams
  | badIndexer
  | insufficientCollateral
  | badInput
  | missingBlocks (unresolved : List UnresolvedBlockM)
deriving DecidableEq

/-- Outcome of `serde_json::from_str::<Response<_>>` on the indexer's
`graphql_response` body: a deserialization failure, or the parsed envelope's
optional GraphQL error messages. -/
inductive GraphqlOutcome where
  | parseFailure
  | parsed (errs : Option (List String))
deriving DecidableEq

/-- Outcome of `Resolver::query_indexer`: a transport-level error, or a
response body. -/
inductive IndexerQueryResult where
  | transportFailure
  | response (g : GraphqlOutcome)
deriving DecidableEq

/-- Outcomes of the external collaborators for one loop iteration.
`unresolvedAfter` is what remains unresolved after `resolve_blocks` matched
the resolver's heads against the missing blocks; `transferOk` is the result
of the spawned `create_transfer`. -/
structure Step where
  selection : SelectionOutcome
  unresolvedAfter : List UnresolvedBlockM
  transferOk : Bool
  queryResult : IndexerQueryResult

/-- `QueryEngineError` from `query_engine/mod.rs`. -/
inductive QueryEngineError where
  | subgraphNotFound
  | noIndexerSelected
  | apiKeySubgraphNotAuthorized
  | malformedQuery
  | missingBlocks (bs : List UnresolvedBlockM)
deriving DecidableEq

/-- Observations the loop feeds back to the selection state. -/
inductive Obs where
  | failedQuery (i : Address)
  | indexingBehind (i : Address)
  | successfulQuery (i : Address)
deriving DecidableEq

/-- Result of a run of `execute_deployment_query`: the value returned to the
caller (the winning `IndexerQuery` stands for the `QueryResponse` built from
it), the observations emitted, the final candidate list, and the collateral
transfers requested (with their outcomes, which the loop ignores). -/
structure ExecState where
  result : Except QueryEngineError IndexerQueryM
  observations : List Obs
  indexers : List Address
  transfers : List (Address × Bool)

/-- The indexer-behind marker message matched against the GraphQL errors. -/
def behindMessage : String :=
  "Failed to decode `block.hash` value: `no block with that hash found`"

/-- The loop body of `execute_deployment_query`, iteration by iteration:
* selection `Ok(None)`, `MissingNetworkParams`, `BadIndexer`,
  `InsufficientCollateral` → return `NoIndexerSelected`;
* `BadInput` → return `MalformedQuery`;
* `MissingBlocks` → `resolve_blocks`; if anything remains unresolved return
  `MissingBlocks(remaining)`, else continue;
* a selected query with `low_collateral_warning` spawns `create_transfer`,
  whose outcome is only logged;
* a transport error observes a failed query, removes the indexer from the
  request's candidate list, and continues;
* a `graphql_response` body that fails to deserialize returns
  `NoIndexerSelected` for the whole request (the `?` on the `map_err`);
* a response whose error list contains the behind marker observes
  indexing-behind and continues;
* otherwise the response wins: observe a successful query and return it.
Exhausting the retry budget returns `NoIndexerSelected`. -/
def execLoop (env : Nat → Step) :
    Nat → Nat → List Address → List Obs → List (Address × Bool) → ExecState
  | 0, _, idx, obs, tr => ⟨.error .noIndexerSelected, obs, idx, tr⟩
  | retry + 1, iter, idx, obs, tr =>
    let st := env iter
    match st.selection with
    | .noneSelected | .missingNetworkParams | .badIndexer | .insufficientCollateral =>
      ⟨.error .noIndexerSelected, obs, idx, tr⟩
    | .badInput => ⟨.error .malformedQuery, obs, idx, tr⟩
    | .missingBlocks _ =>
      if st.unresolvedAfter.isEmpty then execLoop env retry (iter + 1) idx obs tr
      else ⟨.error (.missingBlocks st.unresolvedAfter), obs, idx, tr⟩
    | .selected q =>
      let tr' := if q.lowCollateralWarning then tr ++ [(q.indexer, st.transferOk)] else tr
      match st.queryResult with
      | .transportFailure =>
        execLoop env retry (iter + 1) (idx.erase q.indexer)
          (obs ++ [.failedQuery q.indexer]) tr'
      | .response .parseFailure => ⟨.error .noIndexerSelected, obs, idx, tr'⟩
      | .response (.parsed errs) =>
        if (errs.map (fun l => l.any (fun m => m = behindMessage))).getD false then
          execLoop env retry (iter + 1) idx (obs ++ [.indexingBehind q.indexer]) tr'
        else ⟨.ok q, obs ++ [.successfulQuery q.indexer], idx, tr'⟩

/-- The fields of `APIKey` that `execute_query` reads. -/
structure ApiKeyM where
  deployments : List Deployment
deriving DecidableEq

/-- Name resolution of `execute_query`: a content-addressed subgraph is its
own deployment; a named subgraph is looked up in `current_deployments`
(absence, including cold start, is `SubgraphNotFound`). -/
def resolveDeployment (current : List (String × Deployment)) :
    Subgraph → Option Deployment
  | .deployment d => some d
  | .name n => (current.find? (fun p => p.1 = n)).map Prod.snd

/-- `execute_query`: resolve the deployment, authorize it against the API
key's permit list (`!deployments.is_empty() && !deployments.contains(..)` is
rejected), then run the deployment-query loop. -/
def executeQuery (current : List (String × Deployment)) (apiKey : ApiKeyM)
    (sub : Subgraph) (deploymentIndexers : List Address) (env : Nat → Step)
    (retryLimit : Nat) : Except QueryEngineError IndexerQueryM :=
  match resolveDeployment current sub with
  | none => .error .subgraphNotFound
  | some d =>
    if apiKey.deployments ≠ [] ∧ d ∉ apiKey.deployments then
      .error .apiKeySubgraphNotAuthorized
    else (execLoop env retryLimit 0 deploymentIndexers [] []).result

/-- Agreement of two steps on everything except the collateral-transfer
outcome. -/
def stepAgrees (s₁ s₂ : Step) : Prop :=
  s₁.selection = s₂.selection ∧ s₁.unresolvedAfter = s₂.unresolvedAfter ∧
    s₁.queryResult = s₂.queryResult

/-! ## Subscriptions model (`graph-gateway/src/subscriptions_subgraph.rs`) -/

/-- An `authorizedSigners` entry of the subscriptions subgraph. -/
structure AuthorizedSigner where
  signer : Address
deriving DecidableEq

/-- The `user` object of an active subscription. -/
structure SubUser where
  id : Address
  authorizedSigners : List AuthorizedSigner
deriving DecidableEq

/-- An `ActiveSubscription` row returned by the paginated query. -/
structure ActiveSubscription where
  user : SubUser
  rate : Nat
deriving DecidableEq

/-- The published `Subscription` value. -/
structure Subscription where
  signers : List Address
  rate : Nat
deriving DecidableEq

/-- The map built by `poll_active_subscriptions`: per user, the authorized
signers chained with the user's own id, keyed by the user id. -/
def subscriptionsMap (resp : List ActiveSubscription) :
    List (Address × Subscription) :=
  resp.map fun s =>
    (s.user.id,
      { signers := s.user.authorizedSigners.map AuthorizedSigner.signer ++ [s.user.id]
        rate := s.rate })

/-! ## Theorems -/

theorem greedyTake_fee_bound (budget : Nat) :
    ∀ (l : List Selection) (limit spent : Nat), spent ≤ budget →
      spent + sumFees (greedyTake budget limit spent l) ≤ budget := by
  intro l
  induction l with
  | nil => intro limit spent h; simpa [greedyTake, sumFees] using h
  | cons s rest ih =>
    intro limit spent h
    by_cases hl : limit = 0
    · simpa [greedyTake, hl, sumFees] using h
    · by_cases hfee : spent + s.fee ≤ budget
      · have hrec := ih (limit - 1) (spent + s.fee) hfee
        simp only [sumFees] at hrec ⊢
        simp only [greedyTake, hl, hfee, if_true, if_false, ite_true, ite_false,
          List.foldr_cons]
        omega
      · have hrec := ih limit spent h
        simp only [sumFees] at hrec ⊢
        simp [greedyTake, hl, hfee]
        omega

/-- C1: for every request and every outcome of `select_indexers`, the sum of
the fees of the returned selections is at most the request's budget. -/
theorem selection_fees_within_budget (cands : List CandidateInfo)
    (p : UtilityParams) (limit : Nat) :
    sumFees (selectIndexers cands p limit).selections ≤ p.budget := by
  have h := greedyTake_fee_bound p.budget
    (sortSels ((cands.filter (fun c => disqualify p c = none)).map
      (fun c => Selection.mk c.indexer (candidateFee c) c.utility)))
    limit 0 (Nat.zero_le _)
  simpa [selectIndexers] using h

/-- C6: `select_indexers` is deterministic — against a fixed snapshot
(flattened into the candidates) and fixed request input, two calls return
identical results. -/
theorem select_indexers_deterministic (cands : List CandidateInfo)
    (p : UtilityParams) (limit : Nat) :
    selectIndexers cands p limit = selectIndexers cands p limit := rfl

/-- C10: every subscription published by `poll_active_subscriptions` has the
user's own address among its signers. -/
theorem subscription_signers_contain_user (resp : List ActiveSubscription)
    (entry : Address × Subscription) (h : entry ∈ subscriptionsMap resp) :
    entry.1 ∈ entry.2.signers := by
  obtain ⟨s, _, rfl⟩ := List.mem_map.mp h
  simp [List.mem_append]

theorem subscription_signers_contain_user_witness :
    (((3 : Address), Subscription.mk [7, 3] 5) ∈
        subscriptionsMap [ActiveSubscription.mk (SubUser.mk 3 [AuthorizedSigner.mk 7]) 5]) ∧
      (3 : Address) ∈ (Subscription.mk [7, 3] 5).signers :=
  ⟨by decide,
    subscription_signers_contain_user
      [ActiveSubscription.mk (SubUser.mk 3 [AuthorizedSigner.mk 7]) 5]
      ((3 : Address), Subscription.mk [7, 3] 5) (by decide)⟩

theorem execLoop_no_auth (env : Nat → Step) :
    ∀ (retry iter : Nat) (idx : List Address) (obs : List Obs)
      (tr : List (Address × Bool)),
      (execLoop env retry iter idx obs tr).result ≠
        Except.error QueryEngineError.apiKeySubgraphNotAuthorized := by
  intro retry
  induction retry with
  | zero => intro iter idx obs tr; simp [execLoop]
  | succ n ih =>
    intro iter idx obs tr
    simp only [execLoop]
    rcases hsel : (env iter).selection with q | _ | _ | _ | _ | _ | u
    all_goals simp only [hsel]
    all_goals try simp
    · rcases hq : (env iter).queryResult with _ | g
      · simp only [hq]; exact ih _ _ _ _
      · rcases g with _ | errs
        · simp [hq]
        · simp only [hq]
          split
          · exact ih _ _ _ _
          · simp
    · split
      · exact ih _ _ _ _
      · simp

theorem execLoop_agrees (env₁ env₂ : Nat → Step)
    (h : ∀ n, stepAgrees (env₁ n) (env₂ n)) :
    ∀ (retry iter : Nat) (idx : List Address) (obs : List Obs)
      (tr₁ tr₂ : List (Address × Bool)),
      (execLoop env₁ retry iter idx obs tr₁).result =
          (execLoop env₂ retry iter idx obs tr₂).result ∧
        (execLoop env₁ retry iter idx obs tr₁).observations =
          (execLoop env₂ retry iter idx obs tr₂).observations ∧
        (execLoop env₁ retry iter idx obs tr₁).indexers =
          (execLoop env₂ retry iter idx obs tr₂).indexers := by
  intro retry
  induction retry with
  | zero => intro iter idx obs tr₁ tr₂; exact ⟨rfl, rfl, rfl⟩
  | succ n ih =>
    intro iter idx obs tr₁ tr₂
    obtain ⟨hsel, hua, hq⟩ := h iter
    simp only [execLoop, ← hsel, ← hua, ← hq]
    rcases hs : (env₁ iter).selection with q | _ | _ | _ | _ | _ | u
    all_goals simp only [hs]
    all_goals try exact ⟨trivial, trivial, trivial⟩
    · rcases hqr : (env₁ iter).queryResult with _ | g
      · simp only [hqr]; exact ih _ _ _ _ _
      · rcases g with _ | errs
        · simp only [hqr]; exact ⟨trivial, trivial, trivial⟩
        · simp only [hqr]
          by_cases hb : ((errs.map (fun l => l.any (fun m => m = behindMessage))).getD false) = true
          · simp only [hb, if_true]; exact ih _ _ _ _ _
          · simp [hb]
    · by_cases hemp : (env₁ iter).unresolvedAfter.isEmpty = true
      · simp only [hemp, if_true]; exact ih _ _ _ _ _
      · simp [hemp]

/-- C9 -/
theorem apikey_authorization_iff (current : List (String × Deployment))
    (apiKey : ApiKeyM) (sub : Subgraph) (idx : List Address) (env : Nat → Step)
    (retry : Nat) :
    executeQuery current apiKey sub idx env retry =
        .error .apiKeySubgraphNotAuthorized ↔
      ∃ d, resolveDeployment current sub = some d ∧
        apiKey.deployments ≠ [] ∧ d ∉ apiKey.deployments := by
  unfold executeQuery
  rcases hres : resolveDeployment current sub with _ | d
  · simp
  · by_cases hauth : apiKey.deployments ≠ [] ∧ d ∉ apiKey.deployments
    · simp [hauth]
    · simp only [hauth, if_false, ite_false]
      constructor
      · intro h; exact absurd h (execLoop_no_auth env retry 0 idx [] [])
      · rintro ⟨d', hd', h2⟩
        cases hd'
        exact absurd h2 hauth

/-- C8 -/
theorem collateral_transfer_independent (current : List (String × Deployment))
    (apiKey : ApiKeyM) (sub : Subgraph) (idx : List Address)
    (env₁ env₂ : Nat → Step) (retry : Nat)
    (h : ∀ n, stepAgrees (env₁ n) (env₂ n)) :
    executeQuery current apiKey sub idx env₁ retry =
      executeQuery current apiKey sub idx env₂ retry := by
  unfold executeQuery
  rcases resolveDeployment current sub with _ | d
  · rfl
  · by_cases hauth : apiKey.deployments ≠ [] ∧ d ∉ apiKey.deployments
    · simp [hauth]
    · simp only [hauth, if_false, ite_false]
      exact (execLoop_agrees env₁ env₂ h retry 0 idx [] [] []).1

theorem collateral_transfer_independent_witness :
    executeQuery [] (ApiKeyM.mk []) (Subgraph.deployment 1) [5]
        (fun _ => ⟨.selected ⟨5, 2, true⟩, [], true, .response (.parsed none)⟩) 1 =
      executeQuery [] (ApiKeyM.mk []) (Subgraph.deployment 1) [5]
        (fun _ => ⟨.selected ⟨5, 2, true⟩, [], false, .response (.parsed none)⟩) 1 :=
  collateral_transfer_independent [] (ApiKeyM.mk []) (Subgraph.deployment 1) [5]
    (fun _ => ⟨.selected ⟨5, 2, true⟩, [], true, .response (.parsed none)⟩)
    (fun _ => ⟨.selected ⟨5, 2, true⟩, [], false, .response (.parsed none)⟩) 1
    (fun _ => ⟨rfl, rfl, rfl⟩)

/-- C4 amended -/
theorem transport_error_drops_indexer (env : Nat → Step) (retry iter : Nat)
    (idx : List Address) (obs : List Obs) (tr : List (Address × Bool))
    (q : IndexerQueryM) (hsel : (env iter).selection = .selected q) :
    ((env iter).queryResult = .transportFailure →
      execLoop env (retry + 1) iter idx obs tr =
        execLoop env retry (iter + 1) (idx.erase q.indexer)
          (obs ++ [.failedQuery q.indexer])
          (if q.lowCollateralWarning then tr ++ [(q.indexer, (env iter).transferOk)]
           else tr)) ∧
    ((env iter).queryResult = .response .parseFailure →
      execLoop env (retry + 1) iter idx obs tr =
        ⟨.error .noIndexerSelected, obs, idx,
          if q.lowCollateralWarning then tr ++ [(q.indexer, (env iter).transferOk)]
          else tr⟩) := by
  constructor
  · intro hq; simp only [execLoop, hsel, hq]
  · intro hq; simp only [execLoop, hsel, hq]

theorem transport_error_drops_indexer_witness :
    execLoop (fun _ => ⟨.selected ⟨5, 2, false⟩, [], true, .transportFailure⟩) 2 0 [5] [] [] =
      execLoop (fun _ => ⟨.selected ⟨5, 2, false⟩, [], true, .transportFailure⟩) 1 1
        (([5] : List Address).erase 5) [Obs.failedQuery 5] [] := by
  have h := (transport_error_drops_indexer
    (fun _ => ⟨.selected ⟨5, 2, false⟩, [], true, .transportFailure⟩) 1 0 [5] [] []
    ⟨5, 2, false⟩ rfl).1 rfl
  simpa using h

/-- C4 counterexample -/
theorem deserialization_error_not_observed :
    Obs.failedQuery 5 ∉
        (execLoop (fun _ => ⟨.selected ⟨5, 2, false⟩, [], true, .response .parseFailure⟩)
          3 0 [5] [] []).observations ∧
      (5 : Address) ∈
        (execLoop (fun _ => ⟨.selected ⟨5, 2, false⟩, [], true, .response .parseFailure⟩)
          3 0 [5] [] []).indexers ∧
      (execLoop (fun _ => ⟨.selected ⟨5, 2, false⟩, [], true, .response .parseFailure⟩)
          3 0 [5] [] []).result = .error .noIndexerSelected := by
  refine ⟨by simp [execLoop], by simp [execLoop], rfl⟩

/-- C5 amended -/
theorem indexing_behind_observed (env : Nat → Step) (retry iter : Nat)
    (idx : List Address) (obs : List Obs) (tr : List (Address × Bool))
    (q : IndexerQueryM) (errs : Option (List String))
    (hsel : (env iter).selection = .selected q)
    (hq : (env iter).queryResult = .response (.parsed errs))
    (hb : (errs.map (fun l => l.any (fun m => m = behindMessage))).getD false = true) :
    execLoop env (retry + 1) iter idx obs tr =
      execLoop env retry (iter + 1) idx (obs ++ [.indexingBehind q.indexer])
        (if q.lowCollateralWarning then tr ++ [(q.indexer, (env iter).transferOk)]
         else tr) := by
  simp only [execLoop, hsel, hq, hb, if_true]

theorem indexing_behind_observed_witness :
    execLoop (fun _ => ⟨.selected ⟨5, 2, false⟩, [], true,
        .response (.parsed (some [behindMessage]))⟩) 1 0 [5] [] [] =
      execLoop (fun _ => ⟨.selected ⟨5, 2, false⟩, [], true,
        .response (.parsed (some [behindMessage]))⟩) 0 1 [5] [Obs.indexingBehind 5] [] := by
  have h := indexing_behind_observed
    (fun _ => ⟨.selected ⟨5, 2, false⟩, [], true,
      .response (.parsed (some [behindMessage]))⟩) 0 0 [5] [] []
    ⟨5, 2, false⟩ (some [behindMessage]) rfl rfl (by simp)
  simpa using h

/-- C5 counterexample -/
theorem indexing_behind_not_dropped :
    (execLoop (fun _ => ⟨.selected ⟨5, 2, false⟩, [], true,
        .response (.parsed (some [behindMessage]))⟩) 1 0 [5] [] []).observations =
      [Obs.indexingBehind 5] ∧
    (5 : Address) ∈ (execLoop (fun _ => ⟨.selected ⟨5, 2, false⟩, [], true,
        .response (.parsed (some [behindMessage]))⟩) 1 0 [5] [] []).indexers := by
  constructor
  · simp [execLoop]
  · simp [execLoop]

theorem errors_filter_eq (p : UtilityParams) (e : IndexerError) :
    ∀ cands : List CandidateInfo,
      ((cands.filterMap
          (fun c => (disqualify p c).map (fun e' => (c.indexer, e')))).filter
        (fun pr => pr.2 = e)).map Prod.fst = independentErrors p cands e := by
  intro cands
  induction cands with
  | nil => simp [independentErrors]
  | cons c rest ih =>
    rcases hd : disqualify p c with _ | e'
    · simpa [independentErrors, List.filterMap_cons, List.filter_cons, hd]
        using ih
    · by_cases he : e' = e
      · subst he
        simpa [independentErrors, List.filterMap_cons, List.filter_cons, hd]
          using ih
      · simpa [independentErrors, List.filterMap_cons, List.filter_cons, hd, he]
          using ih

theorem errors_fst_mem (p : UtilityParams) (cands : List CandidateInfo)
    (pr : Address × IndexerError)
    (h : pr ∈ cands.filterMap
      (fun c => (disqualify p c).map (fun e => (c.indexer, e)))) :
    pr.1 ∈ cands.map CandidateInfo.indexer := by
  obtain ⟨c, hc, hfc⟩ := List.mem_filterMap.mp h
  rcases hd : disqualify p c with _ | e' <;> rw [hd] at hfc
  · simp at hfc
  · simp at hfc
    rw [← hfc]
    exact List.mem_map.mpr ⟨c, hc, rfl⟩

theorem errors_at_most_one (p : UtilityParams) :
    ∀ cands : List CandidateInfo, (cands.map CandidateInfo.indexer).Nodup →
      ∀ a : Address,
        ((cands.filterMap
            (fun c => (disqualify p c).map (fun e => (c.indexer, e)))).filter
          (fun pr => pr.1 = a)).length ≤ 1 := by
  intro cands
  induction cands with
  | nil => intro _ a; simp
  | cons c rest ih =>
    intro hnd a
    rw [List.map_cons, List.nodup_cons] at hnd
    obtain ⟨hc, hnd'⟩ := hnd
    rcases hd : disqualify p c with _ | e'
    · simpa [List.filterMap_cons, hd] using ih hnd' a
    · by_cases ha : c.indexer = a
      · have hnil : (rest.filterMap
            (fun c => (disqualify p c).map (fun e => (c.indexer, e)))).filter
              (fun pr => pr.1 = a) = [] := by
          rw [List.filter_eq_nil_iff]
          intro pr hpr
          have := errors_fst_mem p rest pr hpr
          simp only [decide_eq_true_eq]
          intro heq
          rw [heq, ← ha] at this
          exact hc this
        simp [List.filterMap_cons, hd, List.filter_cons, ha, hnil]
      · simpa [List.filterMap_cons, hd, List.filter_cons, ha] using ih hnd' a

/-- C2 -/
theorem error_map_matches_independent (cands : List CandidateInfo)
    (p : UtilityParams) (limit : Nat)
    (hnd : (cands.map CandidateInfo.indexer).Nodup) :
    (∀ e, (((selectIndexers cands p limit).errors).filter
        (fun pr => pr.2 = e)).map Prod.fst = independentErrors p cands e) ∧
      ∀ a, (((selectIndexers cands p limit).errors).filter
        (fun pr => pr.1 = a)).length ≤ 1 := by
  constructor
  · intro e
    simpa [selectIndexers] using errors_filter_eq p e cands
  · intro a
    simpa [selectIndexers] using errors_at_most_one p cands hnd a

theorem error_map_matches_independent_witness :
    (([⟨1, 0, 1, some ⟨5⟩, some 1, 3⟩, ⟨2, 1, 1, some ⟨5⟩, some 1, 3⟩] :
        List CandidateInfo).map CandidateInfo.indexer).Nodup ∧
      ((∀ e, (((selectIndexers
            [⟨1, 0, 1, some ⟨5⟩, some 1, 3⟩, ⟨2, 1, 1, some ⟨5⟩, some 1, 3⟩]
            ⟨10, none⟩ 1).errors).filter (fun pr => pr.2 = e)).map Prod.fst =
          independentErrors ⟨10, none⟩
            [⟨1, 0, 1, some ⟨5⟩, some 1, 3⟩, ⟨2, 1, 1, some ⟨5⟩, some 1, 3⟩] e) ∧
        ∀ a, (((selectIndexers
            [⟨1, 0, 1, some ⟨5⟩, some 1, 3⟩, ⟨2, 1, 1, some ⟨5⟩, some 1, 3⟩]
            ⟨10, none⟩ 1).errors).filter (fun pr => pr.1 = a)).length ≤ 1) :=
  ⟨by decide,
    error_map_matches_independent
      [⟨1, 0, 1, some ⟨5⟩, some 1, 3⟩, ⟨2, 1, 1, some ⟨5⟩, some 1, 3⟩]
      ⟨10, none⟩ 1 (by decide)⟩

theorem insertSel_ne_nil (x : Selection) (l : List Selection) :
    insertSel x l ≠ [] := by
  cases l with
  | nil => simp [insertSel]
  | cons y ys =>
    simp only [insertSel]
    split <;> simp

theorem mem_insertSel {y x : Selection} {l : List Selection}
    (h : y ∈ insertSel x l) : y = x ∨ y ∈ l := by
  induction l with
  | nil => simpa [insertSel] using h
  | cons z zs ih =>
    simp only [insertSel] at h
    split at h
    · rcases List.mem_cons.mp h with h1 | h1
      · exact Or.inl h1
      · exact Or.inr h1
    · rcases List.mem_cons.mp h with h1 | h1
      · exact Or.inr (List.mem_cons.mpr (Or.inl h1))
      · rcases ih h1 with h2 | h2
        · exact Or.inl h2
        · exact Or.inr (List.mem_cons.mpr (Or.inr h2))

theorem mem_sortSels {y : Selection} :
    ∀ {l : List Selection}, y ∈ sortSels l → y ∈ l := by
  intro l
  induction l with
  | nil => simp [sortSels]
  | cons x xs ih =>
    intro h
    simp only [sortSels] at h
    rcases mem_insertSel h with h1 | h1
    · exact List.mem_cons.mpr (Or.inl h1)
    · exact List.mem_cons.mpr (Or.inr (ih h1))

theorem sortSels_ne_nil {l : List Selection} (h : l ≠ []) :
    sortSels l ≠ [] := by
  cases l with
  | nil => exact absurd rfl h
  | cons x xs => exact insertSel_ne_nil x (sortSels xs)

theorem disqualify_none_fee {p : UtilityParams} {c : CandidateInfo}
    (h : disqualify p c = none) : candidateFee c ≤ p.budget := by
  unfold disqualify at h
  split_ifs at h with h1 h2 h3 h4 h5
  · exact Nat.le_of_not_lt h5

/-- C3 -/
theorem empty_selection_all_errored (cands : List CandidateInfo)
    (p : UtilityParams) (limit : Nat) (hlim : 1 ≤ limit)
    (hempty : (selectIndexers cands p limit).selections = []) :
    ∀ c ∈ cands, ∃ e, (c.indexer, e) ∈ (selectIndexers cands p limit).errors := by
  intro c hc
  rcases hd : disqualify p c with _ | e
  · exfalso
    have hcs : c ∈ cands.filter (fun c => disqualify p c = none) :=
      List.mem_filter.mpr ⟨hc, by simp [hd]⟩
    have hps : Selection.mk c.indexer (candidateFee c) c.utility ∈
        (cands.filter (fun c => disqualify p c = none)).map
          (fun c => Selection.mk c.indexer (candidateFee c) c.utility) :=
      List.mem_map.mpr ⟨c, hcs, rfl⟩
    have hne : sortSels ((cands.filter (fun c => disqualify p c = none)).map
        (fun c => Selection.mk c.indexer (candidateFee c) c.utility)) ≠ [] :=
      sortSels_ne_nil (by intro h0; rw [h0] at hps; simp at hps)
    obtain ⟨s, rest, hsr⟩ := List.exists_cons_of_ne_nil hne
    have hsmem : s ∈ (cands.filter (fun c => disqualify p c = none)).map
        (fun c => Selection.mk c.indexer (candidateFee c) c.utility) := by
      apply mem_sortSels
      rw [hsr]
      exact List.mem_cons_self _ _
    obtain ⟨c', hc', hceq⟩ := List.mem_map.mp hsmem
    have hfee : s.fee ≤ p.budget := by
      rw [← hceq]
      exact disqualify_none_fee (of_decide_eq_true (List.mem_filter.mp hc').2)
    have hred : (selectIndexers cands p limit).selections =
        greedyTake p.budget limit 0 (s :: rest) := by
      simp only [selectIndexers]
      rw [hsr]
    rw [hred] at hempty
    have hl0 : ¬ limit = 0 := by omega
    rw [greedyTake] at hempty
    simp only [hl0, if_false, ite_false, Nat.zero_add, hfee, if_true, ite_true] at hempty
    simp at hempty
  · exact ⟨e, List.mem_filterMap.mpr ⟨c, hc, by simp [hd]⟩⟩

theorem empty_selection_all_errored_witness :
    1 ≤ 1 ∧
      (selectIndexers [⟨1, 0, 1, some ⟨5⟩, some 1, 3⟩] ⟨10, none⟩ 1).selections = [] ∧
      ∀ c ∈ [(⟨1, 0, 1, some ⟨5⟩, some 1, 3⟩ : CandidateInfo)],
        ∃ e, (c.indexer, e) ∈
          (selectIndexers [⟨1, 0, 1, some ⟨5⟩, some 1, 3⟩] ⟨10, none⟩ 1).errors :=
  ⟨by decide, by decide,
    empty_selection_all_errored [⟨1, 0, 1, some ⟨5⟩, some 1, 3⟩] ⟨10, none⟩ 1
      (by decide) (by decide)⟩

theorem decDigitChar_toNat {d : Nat} (h : d < 10) :
    (decDigitChar d).toNat = 48 + d := by
  interval_cases d <;> rfl

theorem isAsciiDigit_decDigitChar {d : Nat} (h : d < 10) :
    isAsciiDigit (decDigitChar d) = true := by
  interval_cases d <;> decide

theorem decDigitChar_ne_zero_char {d : Nat} (h10 : d < 10) (h0 : d ≠ 0) :
    ¬ (decDigitChar d = '0') := by
  interval_cases d
  · exact absurd rfl h0
  all_goals decide

theorem foldl_map_digits :
    ∀ (l : List Nat) (acc : Nat), (∀ d ∈ l, d < 10) →
      (l.map decDigitChar).foldl foldDigitsStep acc =
        l.foldl (fun a d => a * 10 + d) acc := by
  intro l
  induction l with
  | nil => intro acc _; rfl
  | cons d t ih =>
    intro acc hall
    have hd10 : d < 10 := hall d (List.mem_cons_self _ _)
    have hstep : foldDigitsStep acc (decDigitChar d) = acc * 10 + d := by
      unfold foldDigitsStep
      rw [decDigitChar_toNat hd10]
      omega
    simp only [List.map_cons, List.foldl_cons, hstep]
    exact ih _ (fun x hx => hall x (List.mem_cons.mpr (Or.inr hx)))

theorem foldl_reverse_ofDigits :
    ∀ (l : List Nat) (acc : Nat),
      l.reverse.foldl (fun a d => a * 10 + d) acc =
        acc * 10 ^ l.length + Nat.ofDigits 10 l := by
  intro l
  induction l with
  | nil => intro acc; simp
  | cons d t ih =>
    intro acc
    simp only [List.reverse_cons, List.foldl_append, List.foldl_cons, List.foldl_nil,
      ih, Nat.ofDigits_cons, List.length_cons, Nat.cast_id]
    ring

theorem foldDigits_toDecChars (n : Nat) : foldDigits (toDecChars n) = n := by
  by_cases h0 : n = 0
  · subst h0; decide
  · unfold toDecChars foldDigits
    rw [if_neg h0]
    rw [foldl_map_digits _ 0 (fun d hd =>
      Nat.digits_lt_base (by norm_num) (List.mem_reverse.mp hd))]
    rw [foldl_reverse_ofDigits]
    simp [Nat.ofDigits_digits]

theorem takeWhile_len_le (p : Char → Bool) :
    ∀ l : List Char, (l.takeWhile p).length ≤ l.length := by
  intro l
  induction l with
  | nil => simp
  | cons c t ih =>
    by_cases hc : p c
    · rw [List.takeWhile_cons_of_pos hc]
      simpa using ih
    · rw [List.takeWhile_cons_of_neg hc]
      simp

theorem take_takeWhile_zero :
    ∀ (l : List Char) (k : Nat),
      k ≤ (l.takeWhile (fun c => c = '0')).length →
        l.take k = List.replicate k '0' := by
  intro l
  induction l with
  | nil =>
    intro k hk
    simp at hk
    subst hk
    rfl
  | cons c t ih =>
    intro k hk
    by_cases hc : c = '0'
    · cases k with
      | zero => rfl
      | succ j =>
        rw [List.takeWhile_cons_of_pos (by simp [hc])] at hk
        simp only [List.length_cons] at hk
        rw [List.take_succ_cons, ih j (by omega), hc, List.replicate_succ]
    · rw [List.takeWhile_cons_of_neg (by simp [hc])] at hk
      simp at hk
      subst hk
      rfl

theorem trailingZeroCount_le (l : List Char) : trailingZeroCount l ≤ l.length := by
  unfold trailingZeroCount
  have := takeWhile_len_le (fun c => c = '0') l.reverse
  simpa using this

theorem drop_rev_take (l : List Char) (k : Nat) (hk : k ≤ l.length) :
    l.drop (l.length - k) = (l.reverse.take k).reverse := by
  have hlen : (l.drop (l.length - k)).reverse.length = k := by
    simp
    omega
  have h1 : l.reverse.take k = (l.drop (l.length - k)).reverse := by
    calc l.reverse.take k
        = ((l.drop (l.length - k)).reverse ++ (l.take (l.length - k)).reverse).take k := by
          rw [← List.reverse_append, List.take_append_drop]
      _ = (l.drop (l.length - k)).reverse := List.take_left' hlen
  rw [h1, List.reverse_reverse]

theorem drop_trailing_zeros (l : List Char) (k : Nat)
    (hk : k ≤ trailingZeroCount l) :
    l.drop (l.length - k) = List.replicate k '0' := by
  have hk' : k ≤ l.length := le_trans hk (trailingZeroCount_le l)
  rw [drop_rev_take l k hk', take_takeWhile_zero l.reverse k hk,
    List.reverse_replicate]

theorem take_app_trailing_zeros (l : List Char) (k : Nat)
    (hk : k ≤ trailingZeroCount l) :
    l.take (l.length - k) ++ List.replicate k '0' = l := by
  conv_rhs => rw [← List.take_append_drop (l.length - k) l]
  rw [drop_trailing_zeros l k hk]

theorem tz_lt_of_head_ne_zero {c : Char} {t : List Char} (hc : ¬ (c = '0')) :
    trailingZeroCount (c :: t) < (c :: t).length := by
  rcases Nat.lt_or_ge (trailingZeroCount (c :: t)) ((c :: t).length) with h | h
  · exact h
  · exfalso
    have hdrop := drop_trailing_zeros (c :: t) ((c :: t).length) h
    simp only [Nat.sub_self, List.drop_zero] at hdrop
    have : c ∈ List.replicate ((c :: t).length) '0' := by
      rw [← hdrop]
      exact List.mem_cons_self _ _
    exact hc (List.eq_of_mem_replicate this)

theorem no_dot_of_digit {c : Char} (h : isAsciiDigit c = true) : ¬ (c = '.') := by
  intro he
  rw [he] at h
  exact absurd h (by decide)

theorem findIdx_all_digits {l : List Char}
    (h : ∀ c ∈ l, isAsciiDigit c = true) :
    l.findIdx (fun c => c = '.') = l.length :=
  List.findIdx_eq_length_of_false (fun c hc => by
    simp only [decide_eq_false_iff_not]
    exact no_dot_of_digit (h c hc))

theorem findIdx_append_dot (l₁ l₂ : List Char)
    (h : ∀ c ∈ l₁, isAsciiDigit c = true) :
    (l₁ ++ '.' :: l₂).findIdx (fun c => c = '.') = l₁.length := by
  rw [List.findIdx_append, findIdx_all_digits h]
  simp [List.findIdx_cons]

theorem take_pad (l : List Char) (P : Nat) (c : Char) (h : l.length ≤ P) :
    (l ++ List.replicate P c).take P = l ++ List.replicate (P - l.length) c := by
  rw [List.take_append_eq_append_take, List.take_of_length_le h, List.take_replicate,
    Nat.min_eq_left (Nat.sub_le _ _)]

theorem toDecChars_all_digits (n : Nat) :
    ∀ c ∈ toDecChars n, isAsciiDigit c = true := by
  intro c hc
  unfold toDecChars at hc
  by_cases h0 : n = 0
  · rw [if_pos h0] at hc
    simp at hc
    rw [hc]
    decide
  · rw [if_neg h0] at hc
    obtain ⟨d, hd, rfl⟩ := List.mem_map.mp hc
    exact isAsciiDigit_decDigitChar
      (Nat.digits_lt_base (by norm_num) (List.mem_reverse.mp hd))

theorem toDecChars_head_ne_zero {n : Nat} (h0 : n ≠ 0) :
    ∃ c t, toDecChars n = c :: t ∧ ¬ (c = '0') := by
  have hne : Nat.digits 10 n ≠ [] := Nat.digits_ne_nil_iff_ne_zero.mpr h0
  have hrne : (Nat.digits 10 n).reverse ≠ [] := by
    simpa using hne
  obtain ⟨d, ds, hds⟩ := List.exists_cons_of_ne_nil hrne
  have hhead : (Nat.digits 10 n).reverse.head? = some d := by
    rw [hds]
    rfl
  rw [List.head?_reverse, List.getLast?_eq_getLast _ hne] at hhead
  have hdval : d = (Nat.digits 10 n).getLast hne := by
    exact (Option.some.injEq _ _).mp hhead.symm
  have hd0 : d ≠ 0 := by
    rw [hdval]
    exact Nat.getLast_digit_ne_zero 10 h0
  have hd10 : d < 10 := by
    apply Nat.digits_lt_base (by norm_num)
    rw [hdval]
    exact List.getLast_mem hne
  refine ⟨decDigitChar d, ds.map decDigitChar, ?_, decDigitChar_ne_zero_char hd10 hd0⟩
  unfold toDecChars
  rw [if_neg h0, hds, List.map_cons]

theorem foldl_zeros (k : Nat) : ∀ acc : Nat,
    (List.replicate k '0').foldl foldDigitsStep acc = acc * 10 ^ k := by
  induction k with
  | zero => intro acc; simp
  | succ j ih =>
    intro acc
    rw [List.replicate_succ, List.foldl_cons]
    have hstep : foldDigitsStep acc '0' = acc * 10 := by
      simp [foldDigitsStep]
    rw [hstep, ih]
    ring

theorem foldDigits_zero_cons (l : List Char) :
    foldDigits ('0' :: l) = foldDigits l := by
  unfold foldDigits
  rw [List.foldl_cons]
  simp [foldDigitsStep]

theorem foldDigits_zeros_append (k : Nat) (l : List Char) :
    foldDigits (List.replicate k '0' ++ l) = foldDigits l := by
  unfold foldDigits
  rw [List.foldl_append, foldl_zeros]
  simp

theorem fromDecStr_value (l : List Char)
    (hall : ∀ c ∈ l, isAsciiDigit c = true)
    (hlt : foldDigits l < 2 ^ 256) : fromDecStr l = .ok (foldDigits l) := by
  unfold fromDecStr
  rw [if_pos (List.all_eq_true.mpr hall), if_pos hlt]

theorem fromStr_all_digits (P : Nat) (l : List Char) (hne : l ≠ [])
    (hall : ∀ c ∈ l, isAsciiDigit c = true) :
    fromStr P l = fromDecStr (l ++ List.replicate P '0') := by
  obtain ⟨c, t, rfl⟩ := List.exists_cons_of_ne_nil hne
  have hany : (c :: t).any isAsciiDigit = true :=
    List.any_eq_true.mpr ⟨c, List.mem_cons_self _ _, hall c (List.mem_cons_self _ _)⟩
  simp only [fromStr, if_pos hany]
  rw [findIdx_all_digits hall, List.take_length, List.drop_length]
  simp [Nat.min_self]

theorem fromStr_with_dot (P : Nat) (l₁ l₂ : List Char) (hne : l₁ ≠ [])
    (hall : ∀ c ∈ l₁, isAsciiDigit c = true) (hlen : l₂.length ≤ P) :
    fromStr P (l₁ ++ '.' :: l₂) =
      fromDecStr (l₁ ++ (l₂ ++ List.replicate (P - l₂.length) '0')) := by
  obtain ⟨c, t, rfl⟩ := List.exists_cons_of_ne_nil hne
  have hany : ((c :: t) ++ '.' :: l₂).any isAsciiDigit = true :=
    List.any_eq_true.mpr ⟨c, by simp, hall c (List.mem_cons_self _ _)⟩
  simp only [fromStr, if_pos hany]
  rw [findIdx_append_dot _ _ hall, List.take_left, List.drop_left]
  simp only [List.drop_succ_cons, List.drop_zero]
  rw [take_pad _ _ _ hlen]

/-- C7 -/
theorem parse_render_roundtrip (P internal : Nat) (h : internal < 2 ^ 256) :
    fromStr P (render P internal) = .ok internal := by
  by_cases h0 : internal = 0
  · subst h0
    have hall : ∀ c ∈ ('0' :: List.replicate P '0' : List Char),
        isAsciiDigit c = true := by
      intro c hc
      rcases List.mem_cons.mp hc with h1 | h1
      · rw [h1]; decide
      · rw [List.eq_of_mem_replicate h1]; decide
    have hfold : foldDigits ('0' :: List.replicate P '0') = 0 := by
      rw [foldDigits_zero_cons]
      unfold foldDigits
      rw [foldl_zeros]
      simp
    have hr : render P 0 = ['0'] := by simp [render]
    rw [hr]
    rw [fromStr_all_digits P ['0'] (by simp)
      (by intro c hc; simp only [List.mem_singleton] at hc; rw [hc]; decide)]
    have hsh : (['0'] ++ List.replicate P '0' : List Char) =
        '0' :: List.replicate P '0' := rfl
    rw [hsh, fromDecStr_value _ hall (by rw [hfold]; exact h), hfold]
  · have hall : ∀ c ∈ toDecChars internal, isAsciiDigit c = true :=
      toDecChars_all_digits internal
    have hfold : foldDigits (toDecChars internal) = internal :=
      foldDigits_toDecChars internal
    obtain ⟨ch, tl, hD, hc0⟩ := toDecChars_head_ne_zero h0
    have htzlt : trailingZeroCount (toDecChars internal) <
        (toDecChars internal).length := by
      rw [hD]
      exact tz_lt_of_head_ne_zero hc0
    simp only [render, if_neg h0]
    generalize hgen : toDecChars internal = D
    rw [hgen] at hall hfold hD htzlt
    by_cases hLP : D.length < P
    · rw [if_pos hLP]
      have hminval : min (trailingZeroCount D) P = trailingZeroCount D :=
        Nat.min_eq_left (by omega)
      rw [hminval]
      have htake_len : (D.take (D.length - trailingZeroCount D)).length =
          D.length - trailingZeroCount D := by
        rw [List.length_take]
        omega
      have hl₂len : (List.replicate (P - D.length) '0' ++
          D.take (D.length - trailingZeroCount D)).length ≤ P := by
        rw [List.length_append, List.length_replicate, htake_len]
        omega
      have heq : ('0' :: '.' :: (List.replicate (P - D.length) '0' ++
          D.take (D.length - trailingZeroCount D)) : List Char) =
          ['0'] ++ '.' :: (List.replicate (P - D.length) '0' ++
            D.take (D.length - trailingZeroCount D)) := rfl
      rw [heq, fromStr_with_dot P ['0'] _ (by simp)
        (by intro c hc; simp only [List.mem_singleton] at hc; rw [hc]; decide)
        hl₂len]
      have harith : P - (List.replicate (P - D.length) '0' ++
          D.take (D.length - trailingZeroCount D)).length =
          trailingZeroCount D := by
        rw [List.length_append, List.length_replicate, htake_len]
        omega
      rw [harith, List.append_assoc,
        take_app_trailing_zeros D (trailingZeroCount D) (Nat.le_refl _)]
      have hsh : (['0'] ++ (List.replicate (P - D.length) '0' ++ D) : List Char) =
          '0' :: (List.replicate (P - D.length) '0' ++ D) := rfl
      rw [hsh]
      have hall2 : ∀ c ∈ ('0' :: (List.replicate (P - D.length) '0' ++ D)),
          isAsciiDigit c = true := by
        intro c hc
        rcases List.mem_cons.mp hc with h1 | h1
        · rw [h1]; decide
        · rcases List.mem_append.mp h1 with h2 | h2
          · rw [List.eq_of_mem_replicate h2]; decide
          · exact hall c h2
      have hfold2 : foldDigits ('0' :: (List.replicate (P - D.length) '0' ++ D)) =
          internal := by
        rw [foldDigits_zero_cons, foldDigits_zeros_append, hfold]
      rw [fromDecStr_value _ hall2 (by rw [hfold2]; exact h), hfold2]
    · rw [if_neg hLP]
      have hPL : P ≤ D.length := Nat.le_of_not_lt hLP
      by_cases hCP : min (trailingZeroCount D) P = P
      · rw [if_pos hCP]
        have hPtz : P ≤ trailingZeroCount D := by omega
        have hPltL : P < D.length := lt_of_le_of_lt hPtz htzlt
        have hne0 : ¬ (D.take (D.length - P)).length = 0 := by
          rw [List.length_take]
          omega
        rw [if_neg hne0]
        rw [fromStr_all_digits P _
          (fun hnil => hne0 (by rw [hnil]; rfl))
          (fun c hc => hall c (List.mem_of_mem_take hc))]
        rw [take_app_trailing_zeros D P hPtz]
        rw [fromDecStr_value _ hall (by rw [hfold]; exact h), hfold]
      · rw [if_neg hCP]
        have htzP : trailingZeroCount D < P := by omega
        have hminval : min (trailingZeroCount D) P = trailingZeroCount D := by
          omega
        rw [hminval]
        by_cases hL : (D.take (D.length - P)).length = 0
        · rw [if_pos hL]
          have hLP' : D.length = P := by
            rw [List.length_take] at hL
            omega
          rw [show D.length - P = 0 by omega, List.drop_zero]
          have hl₂len : (D.take (P - trailingZeroCount D)).length ≤ P := by
            rw [List.length_take]
            omega
          rw [fromStr_with_dot P ['0'] _ (by simp)
            (by intro c hc; simp only [List.mem_singleton] at hc; rw [hc]; decide)
            hl₂len]
          have hl₂eq : (D.take (P - trailingZeroCount D)).length =
              P - trailingZeroCount D := by
            rw [List.length_take]
            omega
          rw [hl₂eq, show P - (P - trailingZeroCount D) = trailingZeroCount D by
            omega]
          rw [show P - trailingZeroCount D = D.length - trailingZeroCount D by
            omega]
          rw [take_app_trailing_zeros D (trailingZeroCount D) (Nat.le_refl _)]
          have hsh : (['0'] ++ D : List Char) = '0' :: D := rfl
          rw [hsh]
          have hall2 : ∀ c ∈ ('0' :: D), isAsciiDigit c = true := by
            intro c hc
            rcases List.mem_cons.mp hc with h1 | h1
            · rw [h1]; decide
            · exact hall c h1
          have hfold2 : foldDigits ('0' :: D) = internal := by
            rw [foldDigits_zero_cons, hfold]
          rw [fromDecStr_value _ hall2 (by rw [hfold2]; exact h), hfold2]
        · rw [if_neg hL]
          have hLgt : P < D.length := by
            rw [List.length_take] at hL
            omega
          have hl₁ne : D.take (D.length - P) ≠ [] :=
            fun hnil => hL (by rw [hnil]; rfl)
          have hl₁all : ∀ c ∈ D.take (D.length - P), isAsciiDigit c = true :=
            fun c hc => hall c (List.mem_of_mem_take hc)
          have hl₂len : ((D.drop (D.length - P)).take
              (P - trailingZeroCount D)).length ≤ P := by
            rw [List.length_take]
            omega
          rw [fromStr_with_dot P _ _ hl₁ne hl₁all hl₂len]
          have hl₂eq : ((D.drop (D.length - P)).take
              (P - trailingZeroCount D)).length = P - trailingZeroCount D := by
            rw [List.length_take, List.length_drop]
            omega
          rw [hl₂eq, show P - (P - trailingZeroCount D) = trailingZeroCount D by
            omega]
          have hSdrop : (D.drop (D.length - P)).drop (P - trailingZeroCount D) =
              List.replicate (trailingZeroCount D) '0' := by
            rw [List.drop_drop]
            rw [show (D.length - P) + (P - trailingZeroCount D) =
              D.length - trailingZeroCount D by omega]
            exact drop_trailing_zeros D _ (Nat.le_refl _)
          rw [← hSdrop, List.take_append_drop, List.take_append_drop]
          rw [fromDecStr_value _ hall (by rw [hfold]; exact h), hfold]

theorem parse_render_roundtrip_witness :
    (123456789123456 : Nat) < 2 ^ 256 ∧
      fromStr 6 (render 6 123456789123456) = .ok 123456789123456 :=
  ⟨by norm_num, parse_render_roundtrip 6 123456789123456 (by norm_num)⟩
